import Mathlib

/-!
Verification of the vehicle-network-timing-analyzer core (`src/vnta/metrics.py`)
through a shallow embedding.  DataFrames become lists of typed rows, float
arithmetic is modelled over `ℚ`, NaN-propagating optional columns become
`Option ℚ`, and the Python exception raised by `int(...)` on a NaN reduction
becomes `Except.error`.
-/

namespace VNTA

/-- One row of the caller's input DataFrame: `ts_rx_ns` (receive timestamp in
nanoseconds), `seq` (sequence number), optional `stream_id`. -/
structure Record where
  ts_rx_ns : Int
  seq : Int
  stream_id : Option String
deriving DecidableEq

/-- One row of the working DataFrame after the derivation assignments:
`iat_ms` and `abs_dev_ms` are NaN (`none`) for the first row. -/
structure DRow where
  ts_rx_ns : Int
  seq : Int
  stream_id : Option String
  iat_ms : Option ℚ
  abs_dev_ms : Option ℚ
deriving DecidableEq

/-- Comparison used by `work.sort_values("ts_rx_ns")`. -/
def tsLe (a b : Record) : Prop := a.ts_rx_ns ≤ b.ts_rx_ns

instance : DecidableRel tsLe := fun a b => inferInstanceAs (Decidable (a.ts_rx_ns ≤ b.ts_rx_ns))

instance : IsTotal Record tsLe := ⟨fun a b => Int.le_total a.ts_rx_ns b.ts_rx_ns⟩

instance : IsTrans Record tsLe := ⟨fun _ _ _ hab hbc => le_trans hab hbc⟩

/-- Embedding of `work.sort_values("ts_rx_ns").reset_index(drop=True)`: a
deterministic comparison sort ascending by timestamp. -/
def sortByTs (l : List Record) : List Record := List.insertionSort tsLe l

/-- Derivation for the rows after the first one: each row's `iat_ms` is the
timestamp difference to its predecessor divided by 1e6, and `abs_dev_ms` is
the absolute deviation of that from the expected period. -/
def deriveAux (p : ℚ) (prev : Record) : List Record → List DRow
  | [] => []
  | r :: rs =>
    let iat : ℚ := ((r.ts_rx_ns - prev.ts_rx_ns : Int) : ℚ) / 1000000
    { ts_rx_ns := r.ts_rx_ns, seq := r.seq, stream_id := r.stream_id,
      iat_ms := some iat, abs_dev_ms := some |iat - p| } :: deriveAux p r rs

/-- Embedding of the two column assignments
`work["iat_ms"] = work["ts_rx_ns"].diff() / 1e6` and
`work["abs_dev_ms"] = (work["iat_ms"] - expected_period_ms).abs()`:
the first row has NaN in both columns. -/
def deriveRows (p : ℚ) : List Record → List DRow
  | [] => []
  | r :: rs =>
    { ts_rx_ns := r.ts_rx_ns, seq := r.seq, stream_id := r.stream_id,
      iat_ms := none, abs_dev_ms := none } :: deriveAux p r rs

/-- Arithmetic mean of a series (pandas `.mean()`); callers guard emptiness. -/
def meanQ (xs : List ℚ) : ℚ := xs.sum / xs.length

/-- Population variance (pandas `.std(ddof=0)` squared). -/
def varPop (xs : List ℚ) : ℚ := meanQ (xs.map (fun x => (x - meanQ xs) ^ 2))

/-- Minimum of a series (pandas `.min()`); callers guard emptiness. -/
def minQ (xs : List ℚ) : ℚ := xs.min?.getD 0

/-- Maximum of a series (pandas `.max()`); callers guard emptiness. -/
def maxQ (xs : List ℚ) : ℚ := xs.max?.getD 0

/-- Rational approximation of the float square root used by `.std(ddof=0)`:
an integer square root at 6 fractional digits of precision.  No claim depends
on the printed digits of the standard deviation. -/
def sqrtQ (q : ℚ) : ℚ :=
  if q ≤ 0 then 0
  else (Nat.sqrt ((q.num.toNat * 10 ^ 12) / q.den) : ℚ) / 10 ^ 6

/-- Ascending sort of a rational series. -/
def sortQ (xs : List ℚ) : List ℚ := List.insertionSort (· ≤ ·) xs

/-- Embedding of `np.percentile(xs, 95)` with the default linear interpolation
between order statistics. -/
def percentile95 (xs : List ℚ) : ℚ :=
  let s := sortQ xs
  let n := s.length
  if n = 0 then 0
  else
    let h : ℚ := 95 / 100 * ((n : ℚ) - 1)
    let l : Nat := h.floor.toNat
    let a := s.getD l 0
    let b := s.getD (min (l + 1) (n - 1)) 0
    a + (h - (l : ℚ)) * (b - a)

/-- Adjacent differences of the sequence column (`seq.diff()`, dropping the
leading NaN). -/
def seqDiffs (seqs : List Int) : List Int :=
  (seqs.zip seqs.tail).map fun p => p.2 - p.1

/-- Embedding of `int((seq_diff == 0).sum())`. -/
def duplicatesCount (seqs : List Int) : Nat :=
  (seqDiffs seqs).countP (fun d => d == 0)

/-- Embedding of `int((seq_diff < 0).sum())`. -/
def outOfOrderCount (seqs : List Int) : Nat :=
  (seqDiffs seqs).countP (fun d => decide (d < 0))

/-- Embedding of
`expected_total = (seq_max - seq_min + 1) if seq_max >= seq_min else 0`. -/
def expectedTotal (seq_min seq_max : Int) : Int :=
  if seq_max ≥ seq_min then seq_max - seq_min + 1 else 0

/-- Embedding of `int(seq.nunique())`. -/
def observedUnique (seqs : List Int) : Nat := seqs.dedup.length

/-- Embedding of `missing = max(expected_total - observed_unique, 0)`. -/
def missingEst (expected_total : Int) (observed_unique : Nat) : Int :=
  max (expected_total - observed_unique) 0

/-- Embedding of
`loss_rate = (missing / expected_total) if expected_total > 0 else nan`;
the NaN arm is `none`. -/
def lossRate (missing expected_total : Int) : Option ℚ :=
  if expected_total > 0 then some ((missing : ℚ) / (expected_total : ℚ)) else none

/-- Models Python `int(x)` applied to a pandas reduction: on an empty series
the reduction yields NaN (`none`) and `int` raises `ValueError`. -/
def intOfRed : Option Int → Except String Int
  | some v => .ok v
  | none => .error "cannot convert float NaN to integer"

/-- Boolean comparison of a NaN-able column value against a threshold: a NaN
entry compares false, exactly as in pandas. -/
def exceedsB (t : ℚ) : Option ℚ → Bool
  | some d => decide (d > t)
  | none => false

/-- Embedding of `int((work["abs_dev_ms"] > th).sum())`. -/
def vioCount (rows : List DRow) (t : ℚ) : Nat :=
  rows.countP (fun r => exceedsB t r.abs_dev_ms)

/-- Embedding of `int((work["iat_ms"] > spike_iat_ms).sum())`. -/
def spikeCount (rows : List DRow) (thr : ℚ) : Nat :=
  rows.countP (fun r => exceedsB thr r.iat_ms)

/-- Left-pads a digit string with zeros to a fixed width. -/
def padZeros (d : Nat) (s : String) : String :=
  String.mk (List.replicate (d - s.length) '0') ++ s

/-- Round to the nearest integer, ties to even, matching Python's float
formatting rule at the modelled precision. -/
def roundHalfEven (q : ℚ) : Int :=
  let f := ⌊q⌋
  let frac := q - (f : ℚ)
  if frac < 1 / 2 then f
  else if frac > 1 / 2 then f + 1
  else if f % 2 = 0 then f else f + 1

/-- Fixed-point decimal rendering with `d` fractional digits, modelling the
Python format specifiers `:.3f` and `:.4f` over the rational value. -/
def fmtFixed (d : Nat) (q : ℚ) : String :=
  let n := roundHalfEven (q * 10 ^ d)
  let sign := if n < 0 then "-" else ""
  let m := n.natAbs
  let ip := m / 10 ^ d
  let fp := m % 10 ^ d
  if d = 0 then sign ++ toString ip
  else sign ++ toString ip ++ "." ++ padZeros d (toString fp)

/-- Drops trailing zero characters from a fractional digit string. -/
def stripTrailingZeros (s : String) : String :=
  String.mk ((s.toList.reverse.dropWhile (fun c => c == '0')).reverse)

/-- Models the Python `:g` format used for threshold values: integral
rationals print without a decimal point, other magnitudes print with up to six
fractional digits and trailing zeros removed.  Exponent forms for extreme
magnitudes are not modelled; no claim depends on them. -/
def fmtG (q : ℚ) : String :=
  if q.den = 1 then toString q.num
  else
    let n := roundHalfEven (q * 10 ^ 6)
    let sign := if n < 0 then "-" else ""
    let m := n.natAbs
    let ip := m / 10 ^ 6
    let fp := m % 10 ^ 6
    let fs := stripTrailingZeros (padZeros 6 (toString fp))
    if fs = "" then sign ++ toString ip else sign ++ toString ip ++ "." ++ fs

/-- Spike marking of one row (`events.loc[iat > spike_iat_ms] = "iat_spike"`
restricted to a single row); unmarked rows keep the empty-string label. -/
def spikeLabel (thr : ℚ) (r : DRow) : String :=
  match r.iat_ms with
  | some v => if v > thr then "iat_spike" else ""
  | none => ""

/-- The event-type string written for a deviation threshold. -/
def devLabel (t : ℚ) : String := "abs_dev_gt_" ++ fmtG t ++ "ms"

/-- One masked assignment of the classifier loop, restricted to a single row:
set the deviation label when the deviation exceeds the threshold and the row
is still unlabeled. -/
def applyThreshold (t : ℚ) (e : DRow × String) : DRow × String :=
  match e.1.abs_dev_ms with
  | some d => if d > t ∧ e.2 = "" then (e.1, devLabel t) else e
  | none => e

instance : DecidableRel (fun a b : ℚ => b ≤ a) :=
  fun a b => inferInstanceAs (Decidable (b ≤ a))

instance : IsTotal ℚ (fun a b => b ≤ a) := ⟨fun a b => le_total b a⟩

instance : IsTrans ℚ (fun a b => b ≤ a) := ⟨fun _ _ _ h1 h2 => le_trans h2 h1⟩

/-- Embedding of `sorted(dev_thresholds_ms, reverse=True)`. -/
def sortDescQ (ts : List ℚ) : List ℚ := List.insertionSort (fun a b => b ≤ a) ts

/-- The classifier loop over thresholds, largest first, each pass a masked
assignment over all rows. -/
def labelPass (ths : List ℚ) (es : List (DRow × String)) : List (DRow × String) :=
  (sortDescQ ths).foldl (fun acc t => acc.map (applyThreshold t)) es

/-- Full labeling pipeline of the events block: restrict to rows with a
defined `iat_ms`, mark spikes, then run the threshold passes. -/
def labelRows (thr : ℚ) (ths : List ℚ) (rows : List DRow) : List (DRow × String) :=
  labelPass ths ((rows.filter (fun r => r.iat_ms.isSome)).map (fun r => (r, spikeLabel thr r)))

/-- The per-row residual of the labeling pipeline: spike mark first, then the
threshold passes folded over this single row. -/
def rowLabel (thr : ℚ) (ths : List ℚ) (r : DRow) : String :=
  ((sortDescQ ths).foldl (fun e t => applyThreshold t e) (r, spikeLabel thr r)).2

/-- One row of the returned events table; the union of the timing-event and
missing-burst column sets, `none` where a column is inapplicable. -/
structure EventRow where
  ts_rx_ns : Int
  seq : Option Int
  iat_ms : Option ℚ
  abs_dev_ms : Option ℚ
  prev_seq : Option Int
  curr_seq : Option Int
  missing_count : Option Int
  event_type : String
  stream_id : Option String
deriving DecidableEq

/-- Timing-anomaly rows of the events table: labeled rows with the empty
labels filtered out. -/
def timingEvents (thr : ℚ) (ths : List ℚ) (rows : List DRow) : List EventRow :=
  ((labelRows thr ths rows).filter (fun e => e.2 != "")).map fun e =>
    { ts_rx_ns := e.1.ts_rx_ns, seq := some e.1.seq, iat_ms := e.1.iat_ms,
      abs_dev_ms := e.1.abs_dev_ms, prev_seq := none, curr_seq := none,
      missing_count := none, event_type := e.2, stream_id := e.1.stream_id }

/-- One missing-burst descriptor (`index, prev_seq, curr_seq, missing_count`). -/
structure Burst where
  index : Nat
  prev_seq : Int
  curr_seq : Int
  missing_count : Int
deriving DecidableEq

/-- The scan inside `estimate_missing_bursts`: walk the sequence column with
the running predecessor (the shifted series) and the running position. -/
def burstsGo (prev : Int) (idx : Nat) : List Int → List Burst
  | [] => []
  | c :: rest =>
    (if c - prev > 1 then [⟨idx, prev, c, c - prev - 1⟩] else []) ++
      burstsGo c (idx + 1) rest

/-- Embedding of `estimate_missing_bursts`: position 0 has a NaN predecessor
and is skipped; each later position emits a burst exactly when the gap to its
predecessor exceeds one. -/
def estimate_missing_bursts (seqs : List Int) : List Burst :=
  match seqs with
  | [] => []
  | s :: rest => burstsGo s 1 rest

/-- Default row used only to express the total lookup `work.loc[index]`; every
burst index produced by the estimator is in range. -/
def defaultRecord : Record := ⟨0, 0, none⟩

/-- Missing-burst rows of the events table, with the timestamp and stream id
pulled from the working frame at the burst position. -/
def burstEvents (work : List Record) (bs : List Burst) : List EventRow :=
  bs.map fun b =>
    { ts_rx_ns := (work.getD b.index defaultRecord).ts_rx_ns, seq := none,
      iat_ms := none, abs_dev_ms := none, prev_seq := some b.prev_seq,
      curr_seq := some b.curr_seq, missing_count := some b.missing_count,
      event_type := "missing_burst",
      stream_id := (work.getD b.index defaultRecord).stream_id }

/-- Configuration of `compute_metrics`. -/
structure Config where
  expected_period_ms : ℚ
  dev_thresholds_ms : List ℚ
  spike_factor : ℚ
deriving DecidableEq

/-- The three results of `compute_metrics`: the flat summary mapping, the
detail frame, and the events table. -/
structure Output where
  summary : List (String × String)
  detail : List DRow
  events : List EventRow
deriving DecidableEq

/-- The pure part of `compute_metrics` on the sorted working frame, given the
two sequence extrema (whose extraction through `int(...)` is the only fallible
step). -/
def outputOf (cfg : Config) (work : List Record) (seq_min seq_max : Int) : Output :=
  let rows := deriveRows cfg.expected_period_ms work
  let iat := rows.filterMap (fun r => r.iat_ms)
  let abs_dev := rows.filterMap (fun r => r.abs_dev_ms)
  let seqs := work.map (fun r => r.seq)
  let duplicates := duplicatesCount seqs
  let out_of_order := outOfOrderCount seqs
  let expected_total := expectedTotal seq_min seq_max
  let observed_unique := observedUnique seqs
  let missing := missingEst expected_total observed_unique
  let loss_rate := lossRate missing expected_total
  let spike_iat_ms := cfg.expected_period_ms * cfg.spike_factor
  let spike_count := spikeCount rows spike_iat_ms
  let tEvents := timingEvents spike_iat_ms cfg.dev_thresholds_ms rows
  let bursts := estimate_missing_bursts seqs
  let events := tEvents ++ burstEvents work bursts
  let summary : List (String × String) :=
    [ ("packets_observed", toString work.length),
      ("seq_min", toString seq_min),
      ("seq_max", toString seq_max),
      ("missing_packets_est", toString missing),
      ("loss_rate_est", match loss_rate with | some q => fmtFixed 4 q | none => "n/a"),
      ("iat_ms_mean", if iat.length ≠ 0 then fmtFixed 3 (meanQ iat) else "n/a"),
      ("iat_ms_min", if iat.length ≠ 0 then fmtFixed 3 (minQ iat) else "n/a"),
      ("iat_ms_max", if iat.length ≠ 0 then fmtFixed 3 (maxQ iat) else "n/a"),
      ("jitter_ms_std", if iat.length ≠ 0 then fmtFixed 3 (sqrtQ (varPop iat)) else "n/a"),
      ("abs_dev_ms_mean", if abs_dev.length ≠ 0 then fmtFixed 3 (meanQ abs_dev) else "n/a"),
      ("abs_dev_ms_p95", if abs_dev.length ≠ 0 then fmtFixed 3 (percentile95 abs_dev) else "n/a"),
      ("duplicates", toString duplicates),
      ("out_of_order", toString out_of_order),
      ("iat_spike_threshold_ms", fmtFixed 3 spike_iat_ms),
      ("iat_spike_count", toString spike_count) ]
    ++ cfg.dev_thresholds_ms.map
        (fun t => ("violations_abs_dev_gt_" ++ fmtG t ++ "ms", toString (vioCount rows t)))
    ++ [ ("missing_bursts_count", toString bursts.length),
         ("missing_burst_max",
          toString ((bursts.map (fun b => b.missing_count)).max?.getD 0)) ]
  ⟨summary, rows, events⟩

/-- Body of `compute_metrics` after the normalizing sort; all later stages
read only the sorted working frame.  The two `int(seq.min())`/`int(seq.max())`
calls are the only fallible steps: on an empty frame the first one raises. -/
def compute_metrics_sorted (cfg : Config) (work : List Record) : Except String Output :=
  match intOfRed ((work.map (fun r => r.seq)).min?),
    intOfRed ((work.map (fun r => r.seq)).max?) with
  | .ok seq_min, .ok seq_max => .ok (outputOf cfg work seq_min seq_max)
  | .error e, _ => .error e
  | .ok _, .error e => .error e

/-- Embedding of `compute_metrics`: copy, sort by timestamp, then the batch
computation on the sorted working frame. -/
def compute_metrics (cfg : Config) (df : List Record) : Except String Output :=
  compute_metrics_sorted cfg (sortByTs df)

/-- The configuration formed from the Python default arguments
(`dev_thresholds_ms=(1.0, 5.0)`, `spike_factor=2.0`) with a 10 ms nominal
period. -/
def cfg10 : Config := ⟨10, [1, 5], 2⟩

/-- Default row used to express total indexed access into derived frames. -/
def d0 : DRow := ⟨0, 0, none, none, none⟩

/-- The derived row produced for a record with a given predecessor. -/
def dmk (p : ℚ) (prev r : Record) : DRow :=
  { ts_rx_ns := r.ts_rx_ns, seq := r.seq, stream_id := r.stream_id,
    iat_ms := some (((r.ts_rx_ns - prev.ts_rx_ns : Int) : ℚ) / 1000000),
    abs_dev_ms := some |((r.ts_rx_ns - prev.ts_rx_ns : Int) : ℚ) / 1000000 - p| }

/-- Spec-side restatement for the refinement claim about the burst estimator:
one burst for each adjacent pair of the sequence column whose gap exceeds one,
tagged with the position of the second element of the pair. -/
def burstsFromAdjacentPairs (seqs : List Int) : List Burst :=
  (List.enumFrom 1 (seqs.zip seqs.tail)).filterMap fun pc =>
    if pc.2.2 - pc.2.1 > 1 then some ⟨pc.1, pc.2.1, pc.2.2, pc.2.2 - pc.2.1 - 1⟩
    else none

/-- The working row created by `df.copy()` before any derived column exists:
the derived columns are absent (`none`). -/
def toDRow0 (r : Record) : DRow := ⟨r.ts_rx_ns, r.seq, r.stream_id, none, none⟩

/-- Timestamp comparison on working rows, for the sort statement. -/
def drowLe (a b : DRow) : Prop := a.ts_rx_ns ≤ b.ts_rx_ns

instance : DecidableRel drowLe := fun a b => inferInstanceAs (Decidable (a.ts_rx_ns ≤ b.ts_rx_ns))

/-- The two frames visible during `compute_metrics`: the caller's DataFrame
`df` and the working copy `work` (absent before the copy statement runs). -/
structure Heap where
  df : List Record
  work : Option (List DRow)
deriving DecidableEq

/-- Statement `work = df.copy()`: writes only `work`. -/
def stmt_copy (h : Heap) : Heap := { h with work := some (h.df.map toDRow0) }

/-- Statement `work = work.sort_values("ts_rx_ns").reset_index(drop=True)`. -/
def stmt_sort_values (h : Heap) : Heap :=
  { h with work := h.work.map (List.insertionSort drowLe) }

/-- The tail part of the `iat_ms` column assignment: every row after the first
receives the scaled timestamp difference to its predecessor. -/
def setIatAux (prevTs : Int) : List DRow → List DRow
  | [] => []
  | w :: ws =>
    { w with iat_ms := some (((w.ts_rx_ns - prevTs : Int) : ℚ) / 1000000) } ::
      setIatAux w.ts_rx_ns ws

/-- Column assignment `work["iat_ms"] = work["ts_rx_ns"].diff() / 1e6`: the
first row gets NaN (`none`). -/
def setIatColumn : List DRow → List DRow
  | [] => []
  | w :: ws => { w with iat_ms := none } :: setIatAux w.ts_rx_ns ws

/-- Statement form of the `iat_ms` assignment: writes only `work`. -/
def stmt_set_iat (h : Heap) : Heap := { h with work := h.work.map setIatColumn }

/-- Column assignment
`work["abs_dev_ms"] = (work["iat_ms"] - expected_period_ms).abs()`; NaN
propagates. -/
def setAbsDevColumn (p : ℚ) (l : List DRow) : List DRow :=
  l.map fun w => { w with abs_dev_ms := w.iat_ms.map (fun v => |v - p|) }

/-- Statement form of the `abs_dev_ms` assignment: writes only `work`. -/
def stmt_set_abs_dev (p : ℚ) (h : Heap) : Heap :=
  { h with work := h.work.map (setAbsDevColumn p) }

/-- The mutating prologue of `compute_metrics` as a sequence of statements on
the two visible frames: copy, sort, derive the two columns. -/
def derivationPrologue (p : ℚ) (h : Heap) : Heap :=
  stmt_set_abs_dev p (stmt_set_iat (stmt_sort_values (stmt_copy h)))

instance : DecidableEq (Except String Output) :=
  fun a b =>
    match a, b with
    | .ok x, .ok y =>
      if h : x = y then .isTrue (by rw [h]) else .isFalse (by simp [h])
    | .error x, .error y =>
      if h : x = y then .isTrue (by rw [h]) else .isFalse (by simp [h])
    | .ok _, .error _ => .isFalse (by simp)
    | .error _, .ok _ => .isFalse (by simp)

instance : Std.Antisymm (fun (a b : Int) => a ≤ b) := ⟨fun h1 h2 => le_antisymm h1 h2⟩

theorem deriveAux_length (p : ℚ) (prev : Record) (l : List Record) :
    (deriveAux p prev l).length = l.length := by
  induction l generalizing prev with
  | nil => rfl
  | cons r rs ih => simp [deriveAux, ih]

theorem deriveRows_length (p : ℚ) (l : List Record) :
    (deriveRows p l).length = l.length := by
  cases l with
  | nil => rfl
  | cons r rs => simp [deriveRows, deriveAux_length]

theorem deriveAux_getD (p : ℚ) :
    ∀ (l : List Record) (prev : Record) (i : Nat), i < l.length →
    (deriveAux p prev l).getD i d0 =
      dmk p (if i = 0 then prev else l.getD (i - 1) defaultRecord)
        (l.getD i defaultRecord) := by
  intro l
  induction l with
  | nil => intro prev i h; simp at h
  | cons r rs ih =>
    intro prev i h
    cases i with
    | zero => simp [deriveAux, dmk]
    | succ j =>
      have hj : j < rs.length := by simpa using h
      have hrec := ih r j hj
      cases j with
      | zero => simpa [deriveAux] using hrec
      | succ k => simpa [deriveAux] using hrec

theorem deriveRows_getD_succ (p : ℚ) (l : List Record) (i : Nat)
    (hi : i < l.length) (h0 : 0 < i) :
    (deriveRows p l).getD i d0 =
      dmk p (l.getD (i - 1) defaultRecord) (l.getD i defaultRecord) := by
  cases l with
  | nil => simp at hi
  | cons r rs =>
    cases i with
    | zero => exact absurd h0 (by simp)
    | succ j =>
      have hj : j < rs.length := by simpa using hi
      have hrec := deriveAux_getD p rs r j hj
      cases j with
      | zero => simpa [deriveRows] using hrec
      | succ k => simpa [deriveRows] using hrec

/-- Claim C6: for every ordered record list and positive expected period, the
derivation stage returns a frame of the same length with timestamps, sequence
numbers and stream ids preserved position by position; row 0 has undefined
`iat_ms` and `abs_dev_ms`; every later row i has
`iat_ms = (ts[i] - ts[i-1]) / 1e6` and `abs_dev_ms = |iat_ms - p|`.  The
embedded stage is a total function, so no error is raised. -/
theorem derivation_stage_spec (p : ℚ) (hp : 0 < p) (l : List Record) :
    (deriveRows p l).length = l.length ∧
    (∀ i, i < l.length →
      ((deriveRows p l).getD i d0).ts_rx_ns = (l.getD i defaultRecord).ts_rx_ns ∧
      ((deriveRows p l).getD i d0).seq = (l.getD i defaultRecord).seq ∧
      ((deriveRows p l).getD i d0).stream_id = (l.getD i defaultRecord).stream_id) ∧
    (l ≠ [] →
      ((deriveRows p l).getD 0 d0).iat_ms = none ∧
      ((deriveRows p l).getD 0 d0).abs_dev_ms = none) ∧
    (∀ i, i < l.length → 0 < i →
      ((deriveRows p l).getD i d0).iat_ms =
        some ((((l.getD i defaultRecord).ts_rx_ns -
          (l.getD (i - 1) defaultRecord).ts_rx_ns : Int) : ℚ) / 1000000) ∧
      ((deriveRows p l).getD i d0).abs_dev_ms =
        some |(((l.getD i defaultRecord).ts_rx_ns -
          (l.getD (i - 1) defaultRecord).ts_rx_ns : Int) : ℚ) / 1000000 - p|) := by
  refine ⟨deriveRows_length p l, ?_, ?_, ?_⟩
  · intro i hi
    cases l with
    | nil => simp at hi
    | cons r rs =>
      cases i with
      | zero => simp [deriveRows]
      | succ j =>
        have h := deriveRows_getD_succ p (r :: rs) (j + 1) hi (Nat.succ_pos j)
        rw [h]
        simp [dmk]
  · intro hne
    cases l with
    | nil => exact absurd rfl hne
    | cons r rs => simp [deriveRows]
  · intro i hi h0
    have h := deriveRows_getD_succ p l i hi h0
    rw [h]
    simp [dmk]

/-- Witness for `derivation_stage_spec` at a concrete period and record list. -/
theorem derivation_stage_spec_witness :
    ((deriveRows 10 [⟨0, 1, none⟩, ⟨12000000, 2, none⟩]).length = 2) ∧
    ((deriveRows 10 [⟨0, 1, none⟩, ⟨12000000, 2, none⟩]).getD 1 d0).iat_ms = some 12 := by
  have h := derivation_stage_spec 10 (by norm_num) [⟨0, 1, none⟩, ⟨12000000, 2, none⟩]
  refine ⟨h.1, ?_⟩
  have h2 := (h.2.2.2 1 (by decide) (by decide)).1
  rw [h2]
  norm_num

theorem compute_metrics_ok_iff (cfg : Config) (df : List Record) (out : Output) :
    compute_metrics cfg df = .ok out ↔
      ∃ mn mx, ((sortByTs df).map (fun r => r.seq)).min? = some mn ∧
        ((sortByTs df).map (fun r => r.seq)).max? = some mx ∧
        out = outputOf cfg (sortByTs df) mn mx := by
  unfold compute_metrics compute_metrics_sorted
  cases hmn : ((sortByTs df).map (fun r => r.seq)).min? with
  | none => simp [intOfRed]
  | some mn =>
    cases hmx : ((sortByTs df).map (fun r => r.seq)).max? with
    | none => simp [intOfRed]
    | some mx => simp [intOfRed, eq_comm]

theorem orderedInsert_map_toDRow0 (r : Record) (l : List Record) :
    List.orderedInsert drowLe (toDRow0 r) (l.map toDRow0) =
      (List.orderedInsert tsLe r l).map toDRow0 := by
  induction l with
  | nil => rfl
  | cons a as ih =>
    by_cases h : tsLe r a
    · rw [List.map_cons, List.orderedInsert, List.orderedInsert,
        if_pos h, if_pos (show drowLe (toDRow0 r) (toDRow0 a) from h)]
      simp
    · rw [List.map_cons, List.orderedInsert, List.orderedInsert,
        if_neg h, if_neg (show ¬ drowLe (toDRow0 r) (toDRow0 a) from h)]
      simp [ih]

theorem insertionSort_map_toDRow0 (l : List Record) :
    List.insertionSort drowLe (l.map toDRow0) = (sortByTs l).map toDRow0 := by
  induction l with
  | nil => rfl
  | cons r rs ih =>
    simp only [List.map_cons, List.insertionSort, sortByTs] at *
    rw [ih, orderedInsert_map_toDRow0]

theorem setAbsDev_setIatAux (p : ℚ) :
    ∀ (l : List Record) (prev : Record),
    setAbsDevColumn p (setIatAux prev.ts_rx_ns (l.map toDRow0)) = deriveAux p prev l := by
  intro l
  induction l with
  | nil => intro prev; rfl
  | cons r rs ih =>
    intro prev
    simp only [List.map_cons, setIatAux, setAbsDevColumn, List.map_cons] at *
    refine congrArg₂ _ rfl ?_
    exact ih r

theorem setAbsDev_setIat (p : ℚ) (l : List Record) :
    setAbsDevColumn p (setIatColumn (l.map toDRow0)) = deriveRows p l := by
  cases l with
  | nil => rfl
  | cons r rs =>
    simp only [List.map_cons, setIatColumn, setAbsDevColumn, List.map_cons, deriveRows]
    refine congrArg₂ _ rfl ?_
    exact setAbsDev_setIatAux p rs r

/-- Claim C8: the statement sequence of `compute_metrics` never writes to the
caller's frame: after the copy/sort/derive prologue the caller's `df` cell is
unchanged, and the whole derivation lives in the working copy, which ends up
holding exactly the derived row list of the sorted input. -/
theorem compute_metrics_frame (p : ℚ) (h : Heap) :
    (derivationPrologue p h).df = h.df ∧
    (derivationPrologue p h).work = some (deriveRows p (sortByTs h.df)) := by
  refine ⟨rfl, ?_⟩
  show some (setAbsDevColumn p (setIatColumn
    (List.insertionSort drowLe (h.df.map toDRow0)))) = _
  rw [insertionSort_map_toDRow0, setAbsDev_setIat]

theorem burstsGo_eq_enumFrom :
    ∀ (l : List Int) (prev : Int) (idx : Nat),
    burstsGo prev idx l =
      (List.enumFrom idx ((prev :: l).zip l)).filterMap fun pc =>
        if pc.2.2 - pc.2.1 > 1 then some ⟨pc.1, pc.2.1, pc.2.2, pc.2.2 - pc.2.1 - 1⟩
        else none := by
  intro l
  induction l with
  | nil => intro prev idx; rfl
  | cons c rest ih =>
    intro prev idx
    simp only [burstsGo, List.zip_cons_cons, List.enumFrom, List.filterMap_cons]
    by_cases h : c - prev > 1
    · rw [if_pos h, if_pos h]
      simp [ih c (idx + 1), List.zip]
    · rw [if_neg h, if_neg h]
      simp [ih c (idx + 1), List.zip]

theorem burstsGo_nil_of_chain :
    ∀ (l : List Int) (prev : Int) (idx : Nat),
    List.Chain (fun a b => b - a = 1) prev l → burstsGo prev idx l = [] := by
  intro l
  induction l with
  | nil => intro prev idx _; rfl
  | cons c rest ih =>
    intro prev idx hc
    cases hc with
    | cons h1 h2 =>
      simp only [burstsGo]
      rw [if_neg (by omega), List.nil_append]
      exact ih c (idx + 1) h2

/-- Claim C4: the burst estimator emits exactly the bursts of the adjacent
pairs with gap exceeding one, in order and with
`missing_count = gap - 1` — stated as equality with the pair-by-pair
description; `[1, 2, 5, 6]` yields the single burst
`prev_seq = 2, curr_seq = 5, missing_count = 2` at position 2, and strictly
consecutive sequences yield none. -/
theorem burst_estimator_spec :
    (∀ seqs : List Int, estimate_missing_bursts seqs = burstsFromAdjacentPairs seqs) ∧
    estimate_missing_bursts [1, 2, 5, 6] = [⟨2, 2, 5, 2⟩] ∧
    (∀ seqs : List Int, List.Chain' (fun a b => b - a = 1) seqs →
      estimate_missing_bursts seqs = []) := by
  refine ⟨?_, by decide, ?_⟩
  · intro seqs
    cases seqs with
    | nil => rfl
    | cons s rest =>
      show burstsGo s 1 rest = _
      rw [burstsGo_eq_enumFrom rest s 1]
      rfl
  · intro seqs hc
    cases seqs with
    | nil => rfl
    | cons s rest => exact burstsGo_nil_of_chain rest s 1 hc

/-- Witness for `burst_estimator_spec` on a strictly consecutive sequence. -/
theorem burst_estimator_spec_witness :
    estimate_missing_bursts [3, 4, 5, 6] = [] :=
  burst_estimator_spec.2.2 [3, 4, 5, 6] (by norm_num [List.chain'_cons])

/-- Claim C7: the per-threshold violation counters are computed independently
over all rows, so a smaller threshold counts at least as many rows as a larger
one; and every configured threshold contributes its independent counter to the
returned summary, keyed by the threshold value. -/
theorem threshold_monotonicity_claim :
    (∀ (rows : List DRow) (t1 t2 : ℚ), t1 < t2 → vioCount rows t2 ≤ vioCount rows t1) ∧
    (∀ (cfg : Config) (df : List Record) (out : Output),
      compute_metrics cfg df = .ok out → ∀ t ∈ cfg.dev_thresholds_ms,
      ("violations_abs_dev_gt_" ++ fmtG t ++ "ms", toString (vioCount out.detail t))
        ∈ out.summary) := by
  constructor
  · intro rows t1 t2 h
    apply List.countP_mono_left
    intro r _ hr
    revert hr
    cases r.abs_dev_ms with
    | none => intro hr; exact absurd hr (by simp [exceedsB])
    | some d =>
      intro hr
      simp only [exceedsB, decide_eq_true_eq] at hr ⊢
      exact lt_trans h hr
  · intro cfg df out hok t ht
    rw [compute_metrics_ok_iff] at hok
    obtain ⟨mn, mx, hmn, hmx, rfl⟩ := hok
    show _ ∈ (outputOf cfg (sortByTs df) mn mx).summary
    unfold outputOf
    refine List.mem_append_left _ (List.mem_append_right _ ?_)
    exact List.mem_map_of_mem _ ht

/-- Witness for `threshold_monotonicity_claim` at concrete inputs. -/
theorem threshold_monotonicity_claim_witness :
    vioCount [⟨0, 0, none, some 3, some 3⟩] 5 ≤ vioCount [⟨0, 0, none, some 3, some 3⟩] 1 ∧
    ("violations_abs_dev_gt_" ++ fmtG 1 ++ "ms",
      toString (vioCount (outputOf cfg10 [⟨0, 5, none⟩] 5 5).detail 1))
        ∈ (outputOf cfg10 [⟨0, 5, none⟩] 5 5).summary :=
  ⟨threshold_monotonicity_claim.1 [⟨0, 0, none, some 3, some 3⟩] 1 5 (by norm_num),
   threshold_monotonicity_claim.2 cfg10 [⟨0, 5, none⟩] _ rfl 1 (by decide)⟩

theorem min?_spec_int (l : List Int) (a : Int) (h : l.min? = some a) :
    a ∈ l ∧ ∀ b ∈ l, a ≤ b :=
  (List.min?_eq_some_iff (fun a => le_refl a) (fun a b => min_choice a b)
    (fun _ _ _ => le_min_iff)).1 h

theorem max?_spec_int (l : List Int) (a : Int) (h : l.max? = some a) :
    a ∈ l ∧ ∀ b ∈ l, b ≤ a :=
  (List.max?_eq_some_iff (fun a => le_refl a) (fun a b => max_choice a b)
    (fun _ _ _ => max_le_iff)).1 h

/-- Claim C5: on a non-empty sequence column the extrema exist,
`expected_total = seq_max - seq_min + 1` (the guard `seq_max >= seq_min` holds),
`missing = max(expected_total - observed_unique, 0)`, and the loss rate is
defined and equals `missing / expected_total`, a value in `[0, 1]`. -/
theorem integrity_loss_rate_spec (seqs : List Int) (hne : seqs ≠ []) :
    ∃ mn mx, seqs.min? = some mn ∧ seqs.max? = some mx ∧
      mn ≤ mx ∧
      expectedTotal mn mx = mx - mn + 1 ∧
      0 < expectedTotal mn mx ∧
      missingEst (expectedTotal mn mx) (observedUnique seqs) =
        max (expectedTotal mn mx - (observedUnique seqs : Int)) 0 ∧
      ∃ q, lossRate (missingEst (expectedTotal mn mx) (observedUnique seqs))
            (expectedTotal mn mx) = some q ∧
        q = ((missingEst (expectedTotal mn mx) (observedUnique seqs) : ℚ) /
              ((expectedTotal mn mx : Int) : ℚ)) ∧
        0 ≤ q ∧ q ≤ 1 := by
  obtain ⟨a, rest, rfl⟩ := List.exists_cons_of_ne_nil hne
  obtain ⟨mn, hmn⟩ : ∃ mn, (a :: rest).min? = some mn := ⟨_, rfl⟩
  obtain ⟨mx, hmx⟩ : ∃ mx, (a :: rest).max? = some mx := ⟨_, rfl⟩
  have h1 := min?_spec_int _ _ hmn
  have h2 := max?_spec_int _ _ hmx
  have hle : mn ≤ mx := h1.2 mx h2.1
  have hexp : expectedTotal mn mx = mx - mn + 1 := if_pos hle
  have hpos : 0 < expectedTotal mn mx := by rw [hexp]; omega
  have hu : (0 : Int) ≤ (observedUnique (a :: rest) : Int) := Int.ofNat_nonneg _
  have hm0 : 0 ≤ missingEst (expectedTotal mn mx) (observedUnique (a :: rest)) :=
    le_max_right _ _
  have hmle : missingEst (expectedTotal mn mx) (observedUnique (a :: rest)) ≤
      expectedTotal mn mx := by
    unfold missingEst
    refine max_le (by omega) hpos.le
  refine ⟨mn, mx, hmn, hmx, hle, hexp, hpos, rfl, ?_⟩
  refine ⟨_, if_pos hpos, rfl, ?_, ?_⟩
  · apply div_nonneg
    · exact_mod_cast hm0
    · exact_mod_cast hpos.le
  · rw [div_le_one (by exact_mod_cast hpos)]
    exact_mod_cast hmle

/-- Witness for `integrity_loss_rate_spec` on the sequence column
`[1, 2, 5]`. -/
theorem integrity_loss_rate_spec_witness :
    ∃ mn mx, ([1, 2, 5] : List Int).min? = some mn ∧
      ([1, 2, 5] : List Int).max? = some mx ∧
      mn ≤ mx ∧
      expectedTotal mn mx = mx - mn + 1 ∧
      0 < expectedTotal mn mx ∧
      missingEst (expectedTotal mn mx) (observedUnique [1, 2, 5]) =
        max (expectedTotal mn mx - (observedUnique [1, 2, 5] : Int)) 0 ∧
      ∃ q, lossRate (missingEst (expectedTotal mn mx) (observedUnique [1, 2, 5]))
            (expectedTotal mn mx) = some q ∧
        q = ((missingEst (expectedTotal mn mx) (observedUnique [1, 2, 5]) : ℚ) /
              ((expectedTotal mn mx : Int) : ℚ)) ∧
        0 ≤ q ∧ q ≤ 1 :=
  integrity_loss_rate_spec [1, 2, 5] (by decide)

theorem applyThreshold_fst (t : ℚ) (e : DRow × String) : (applyThreshold t e).1 = e.1 := by
  unfold applyThreshold
  cases e.1.abs_dev_ms with
  | none => rfl
  | some d =>
    by_cases hc : d > t ∧ e.2 = ""
    · simp [hc]
    · simp [hc]

theorem foldl_applyThreshold_fst (ts : List ℚ) (e : DRow × String) :
    (ts.foldl (fun e t => applyThreshold t e) e).1 = e.1 := by
  induction ts generalizing e with
  | nil => rfl
  | cons t rest ih => rw [List.foldl_cons, ih, applyThreshold_fst]

theorem applyThreshold_of_ne (t : ℚ) (e : DRow × String) (h : e.2 ≠ "") :
    applyThreshold t e = e := by
  unfold applyThreshold
  cases e.1.abs_dev_ms with
  | none => rfl
  | some d =>
    show (if d > t ∧ e.2 = "" then (e.1, devLabel t) else e) = e
    rw [if_neg (fun hc => h hc.2)]

theorem foldl_applyThreshold_of_ne (ts : List ℚ) (e : DRow × String) (h : e.2 ≠ "") :
    ts.foldl (fun e t => applyThreshold t e) e = e := by
  induction ts with
  | nil => rfl
  | cons t rest ih => rw [List.foldl_cons, applyThreshold_of_ne t e h, ih]

theorem devLabel_length (t : ℚ) : (devLabel t).length = 13 + (fmtG t).length := by
  have h1 : ("abs_dev_gt_" : String).length = 11 := rfl
  have h2 : ("ms" : String).length = 2 := rfl
  simp only [devLabel, String.length_append, h1, h2]
  omega

theorem devLabel_ne_empty (t : ℚ) : devLabel t ≠ "" := by
  intro h
  have h1 := devLabel_length t
  rw [h] at h1
  have h0 : ("" : String).length = 0 := rfl
  omega

theorem devLabel_ne_spike (t : ℚ) : devLabel t ≠ "iat_spike" := by
  intro h
  have h1 := devLabel_length t
  rw [h] at h1
  have h2 : ("iat_spike" : String).length = 9 := rfl
  omega

theorem labelPass_eq_map (ts : List ℚ) (es : List (DRow × String)) :
    ts.foldl (fun acc t => acc.map (applyThreshold t)) es =
      es.map (fun e => ts.foldl (fun e t => applyThreshold t e) e) := by
  induction ts generalizing es with
  | nil => simp
  | cons t rest ih =>
    rw [List.foldl_cons, ih, List.map_map]
    rfl

theorem labelRows_eq (thr : ℚ) (ths : List ℚ) (rows : List DRow) :
    labelRows thr ths rows =
      (rows.filter (fun r => r.iat_ms.isSome)).map
        (fun r => (r, rowLabel thr ths r)) := by
  unfold labelRows labelPass
  rw [labelPass_eq_map, List.map_map]
  refine congrArg (fun f => List.map f _) (funext fun r => ?_)
  refine Prod.ext ?_ rfl
  exact foldl_applyThreshold_fst _ _

theorem fold_desc_spec (ts : List ℚ) (hs : List.Sorted (fun a b : ℚ => b ≤ a) ts)
    (r : DRow) (d : ℚ) (hd : r.abs_dev_ms = some d) :
    (∃ t ∈ ts, d > t ∧ (∀ u ∈ ts, d > u → u ≤ t) ∧
      ts.foldl (fun e t => applyThreshold t e) (r, "") = (r, devLabel t)) ∨
    ((∀ u ∈ ts, ¬ d > u) ∧
      ts.foldl (fun e t => applyThreshold t e) (r, "") = (r, "")) := by
  induction ts with
  | nil => right; exact ⟨by simp, rfl⟩
  | cons t rest ih =>
    have hrest : List.Sorted (fun a b : ℚ => b ≤ a) rest := hs.of_cons
    have hall : ∀ u ∈ rest, u ≤ t := (List.sorted_cons.1 hs).1
    by_cases hdt : d > t
    · left
      have step : applyThreshold t (r, "") = (r, devLabel t) := by
        unfold applyThreshold
        simp [hd, hdt]
      rw [List.foldl_cons, step,
        foldl_applyThreshold_of_ne rest _ (devLabel_ne_empty t)]
      refine ⟨t, List.mem_cons_self t rest, hdt, fun u hu _ => ?_, rfl⟩
      rcases List.mem_cons.1 hu with h | h
      · exact h ▸ le_refl t
      · exact hall u h
    · have step : applyThreshold t (r, "") = (r, "") := by
        unfold applyThreshold
        simp [hd, hdt]
      rw [List.foldl_cons, step]
      rcases ih hrest with ⟨t', ht', hdt', hmax, heq⟩ | ⟨hnone, heq⟩
      · left
        refine ⟨t', List.mem_cons_of_mem _ ht', hdt', fun u hu hdu => ?_, heq⟩
        rcases List.mem_cons.1 hu with h | h
        · exact absurd (h ▸ hdu) hdt
        · exact hmax u h hdu
      · right
        refine ⟨fun u hu => ?_, heq⟩
        rcases List.mem_cons.1 hu with h | h
        · exact h ▸ hdt
        · exact hnone u h

theorem rowLabel_spec (thr : ℚ) (ths : List ℚ) (r : DRow) (v d : ℚ)
    (hv : r.iat_ms = some v) (hd : r.abs_dev_ms = some d) :
    (v > thr → rowLabel thr ths r = "iat_spike") ∧
    (¬ v > thr →
      (∃ t ∈ ths, d > t ∧ (∀ u ∈ ths, d > u → u ≤ t) ∧
        rowLabel thr ths r = devLabel t) ∨
      ((∀ u ∈ ths, ¬ d > u) ∧ rowLabel thr ths r = "")) := by
  constructor
  · intro hvt
    unfold rowLabel
    have hsp : spikeLabel thr r = "iat_spike" := by
      unfold spikeLabel
      rw [hv]
      show (if v > thr then "iat_spike" else "") = "iat_spike"
      exact if_pos hvt
    rw [hsp, foldl_applyThreshold_of_ne _ _ (by rw [show ((r, "iat_spike") : DRow × String).2 = "iat_spike" from rfl]; decide)]
  · intro hvt
    have hsp : spikeLabel thr r = "" := by
      unfold spikeLabel
      rw [hv]
      show (if v > thr then "iat_spike" else "") = ""
      exact if_neg hvt
    have hperm := List.perm_insertionSort (fun a b : ℚ => b ≤ a) ths
    have hsorted : List.Sorted (fun a b : ℚ => b ≤ a) (sortDescQ ths) :=
      List.sorted_insertionSort _ ths
    have hmem : ∀ u, u ∈ sortDescQ ths ↔ u ∈ ths := fun u => hperm.mem_iff
    rcases fold_desc_spec (sortDescQ ths) hsorted r d hd with
      ⟨t, ht, hdt, hmax, heq⟩ | ⟨hnone, heq⟩
    · left
      refine ⟨t, (hmem t).1 ht, hdt, fun u hu hdu => hmax u ((hmem u).2 hu) hdu, ?_⟩
      unfold rowLabel
      rw [hsp, heq]
    · right
      refine ⟨fun u hu => hnone u ((hmem u).2 hu), ?_⟩
      unfold rowLabel
      rw [hsp, heq]

/-- Claim C2: the labeling pipeline is the per-row classifier mapped over the
rows with a defined `iat_ms`; on such a row the classifier yields exactly one
label: `iat_spike` when the inter-arrival time exceeds the spike threshold
(and then no deviation label is applied), otherwise the deviation label of the
largest configured threshold strictly exceeded, and no label when no
threshold is exceeded.  The three outcomes are pairwise distinct strings. -/
theorem classifier_mutual_exclusion :
    (∀ (thr : ℚ) (ths : List ℚ) (rows : List DRow),
      labelRows thr ths rows =
        (rows.filter (fun r => r.iat_ms.isSome)).map
          (fun r => (r, rowLabel thr ths r))) ∧
    (∀ (thr : ℚ) (ths : List ℚ) (r : DRow) (v d : ℚ),
      r.iat_ms = some v → r.abs_dev_ms = some d →
      ((v > thr → rowLabel thr ths r = "iat_spike") ∧
       (¬ v > thr →
         (∃ t ∈ ths, d > t ∧ (∀ u ∈ ths, d > u → u ≤ t) ∧
           rowLabel thr ths r = devLabel t) ∨
         ((∀ u ∈ ths, ¬ d > u) ∧ rowLabel thr ths r = "")))) ∧
    (∀ t : ℚ, devLabel t ≠ "iat_spike" ∧ devLabel t ≠ "" ∧ ("iat_spike" : String) ≠ "") :=
  ⟨labelRows_eq,
   fun thr ths r v d hv hd => rowLabel_spec thr ths r v d hv hd,
   fun t => ⟨devLabel_ne_spike t, devLabel_ne_empty t, by decide⟩⟩

/-- Witness for `classifier_mutual_exclusion`: a concrete row with a 9 ms
deviation under thresholds `1.0` and `5.0` and a 20 ms spike cutoff. -/
theorem classifier_mutual_exclusion_witness :
    ((19 : ℚ) > 20 → rowLabel 20 [1, 5] ⟨0, 0, none, some 19, some 9⟩ = "iat_spike") ∧
    (¬ (19 : ℚ) > 20 →
      (∃ t ∈ ([1, 5] : List ℚ), (9 : ℚ) > t ∧ (∀ u ∈ ([1, 5] : List ℚ), (9 : ℚ) > u → u ≤ t) ∧
        rowLabel 20 [1, 5] ⟨0, 0, none, some 19, some 9⟩ = devLabel t) ∨
      ((∀ u ∈ ([1, 5] : List ℚ), ¬ (9 : ℚ) > u) ∧
        rowLabel 20 [1, 5] ⟨0, 0, none, some 19, some 9⟩ = "")) :=
  classifier_mutual_exclusion.2.1 20 [1, 5] ⟨0, 0, none, some 19, some 9⟩ 19 9 rfl rfl

theorem foldl_applyThreshold_of_none (ts : List ℚ) (e : DRow × String)
    (h : e.1.abs_dev_ms = none) :
    ts.foldl (fun e t => applyThreshold t e) e = e := by
  induction ts with
  | nil => rfl
  | cons t rest ih =>
    have step : applyThreshold t e = e := by
      unfold applyThreshold
      rw [h]
    rw [List.foldl_cons, step, ih]

theorem rowLabel_spike_iff (thr : ℚ) (ths : List ℚ) (r : DRow) (v : ℚ)
    (hv : r.iat_ms = some v) : rowLabel thr ths r = "iat_spike" ↔ v > thr := by
  constructor
  · intro h
    by_contra hvt
    have hsp : spikeLabel thr r = "" := by
      unfold spikeLabel
      rw [hv]
      show (if v > thr then "iat_spike" else "") = ""
      exact if_neg hvt
    cases hd : r.abs_dev_ms with
    | none =>
      have hlab : rowLabel thr ths r = "" := by
        unfold rowLabel
        rw [hsp, foldl_applyThreshold_of_none _ _ hd]
      rw [hlab] at h
      exact absurd h (by decide)
    | some d =>
      have hsorted : List.Sorted (fun a b : ℚ => b ≤ a) (sortDescQ ths) :=
        List.sorted_insertionSort _ ths
      rcases fold_desc_spec (sortDescQ ths) hsorted r d hd with
        ⟨t, _, _, _, heq⟩ | ⟨_, heq⟩
      · have hlab : rowLabel thr ths r = devLabel t := by
          unfold rowLabel
          rw [hsp, heq]
        rw [hlab] at h
        exact devLabel_ne_spike t h
      · have hlab : rowLabel thr ths r = "" := by
          unfold rowLabel
          rw [hsp, heq]
        rw [hlab] at h
        exact absurd h (by decide)
  · intro hvt
    unfold rowLabel
    have hsp : spikeLabel thr r = "iat_spike" := by
      unfold spikeLabel
      rw [hv]
      show (if v > thr then "iat_spike" else "") = "iat_spike"
      exact if_pos hvt
    rw [hsp, foldl_applyThreshold_of_ne _ (r, "iat_spike")
      (show ("iat_spike" : String) ≠ "" by decide)]

theorem spike_events_count (thr : ℚ) (ths : List ℚ) (rows : List DRow)
    (work : List Record) (bs : List Burst) :
    (timingEvents thr ths rows ++ burstEvents work bs).countP
        (fun e => e.event_type == "iat_spike") = spikeCount rows thr := by
  rw [List.countP_append]
  have hb : (burstEvents work bs).countP (fun e => e.event_type == "iat_spike") = 0 := by
    unfold burstEvents
    rw [List.countP_map]
    simp [List.countP_eq_zero]
  rw [hb, Nat.add_zero]
  unfold timingEvents
  rw [List.countP_map, List.countP_filter, labelRows_eq, List.countP_map,
    List.countP_filter]
  unfold spikeCount
  apply List.countP_congr
  intro r _
  cases hv : r.iat_ms with
  | none =>
    have hns : r.iat_ms.isSome = false := by rw [hv]; rfl
    simp [Function.comp, hns, exceedsB, hv]
  | some v =>
    have hs : r.iat_ms.isSome = true := by rw [hv]; rfl
    by_cases hvt : v > thr
    · have hlab := (rowLabel_spike_iff thr ths r v hv).2 hvt
      simp [Function.comp, hs, hlab, exceedsB, hv, hvt]
    · have hlab : rowLabel thr ths r ≠ "iat_spike" :=
        fun h => hvt ((rowLabel_spike_iff thr ths r v hv).1 h)
      simp [Function.comp, hs, exceedsB, hv, hvt, hlab]

unseal Rat.mul Rat.add Rat.sub Rat.inv in
/-- Claim C10: in every successful run, the summary entry `iat_spike_count`
equals the number of rows labeled `iat_spike` in the returned events table;
both count the records whose defined `iat_ms` strictly exceeds
`expected_period_ms * spike_factor`. -/
theorem iat_spike_count_consistency (cfg : Config) (df : List Record) (out : Output)
    (hok : compute_metrics cfg df = .ok out) :
    out.summary.lookup "iat_spike_count" =
      some (toString (out.events.countP (fun e => e.event_type == "iat_spike"))) := by
  rw [compute_metrics_ok_iff] at hok
  obtain ⟨mn, mx, hmn, hmx, rfl⟩ := hok
  simp only [outputOf]
  rw [spike_events_count]
  simp [List.lookup]

/-- Witness for `iat_spike_count_consistency` on a two-record input with one
spike. -/
theorem iat_spike_count_consistency_witness :
    (outputOf cfg10 (sortByTs [⟨0, 1, none⟩, ⟨25000000, 2, none⟩]) 1 2).summary.lookup
        "iat_spike_count" =
      some (toString
        ((outputOf cfg10 (sortByTs [⟨0, 1, none⟩, ⟨25000000, 2, none⟩]) 1 2).events.countP
          (fun e => e.event_type == "iat_spike"))) :=
  iat_spike_count_consistency cfg10 [⟨0, 1, none⟩, ⟨25000000, 2, none⟩] _ rfl

theorem sorted_perm_eq_of_nodup_ts :
    ∀ (l₁ l₂ : List Record), l₁.Perm l₂ →
    List.Sorted tsLe l₁ → List.Sorted tsLe l₂ →
    (l₁.map Record.ts_rx_ns).Nodup → l₁ = l₂ := by
  intro l₁
  induction l₁ with
  | nil =>
    intro l₂ hp _ _ _
    exact (List.Perm.eq_nil hp.symm).symm
  | cons a t₁ ih =>
    intro l₂ hp hs₁ hs₂ hnd
    cases l₂ with
    | nil => exact absurd (List.Perm.eq_nil hp) (by simp)
    | cons b t₂ =>
      rw [List.map_cons] at hnd
      have hab : a = b := by
        by_contra hne
        have hamem : a ∈ b :: t₂ := hp.subset (List.mem_cons_self a t₁)
        have hbmem : b ∈ a :: t₁ := hp.symm.subset (List.mem_cons_self b t₂)
        have ha2 : a ∈ t₂ := by
          rcases List.mem_cons.1 hamem with h | h
          · exact absurd h hne
          · exact h
        have hb1 : b ∈ t₁ := by
          rcases List.mem_cons.1 hbmem with h | h
          · exact absurd h.symm hne
          · exact h
        have h1 : tsLe a b := (List.sorted_cons.1 hs₁).1 b hb1
        have h2 : tsLe b a := (List.sorted_cons.1 hs₂).1 a ha2
        have hts : a.ts_rx_ns = b.ts_rx_ns := le_antisymm h1 h2
        have hmem : b.ts_rx_ns ∈ t₁.map Record.ts_rx_ns :=
          List.mem_map_of_mem Record.ts_rx_ns hb1
        rw [← hts] at hmem
        exact (List.nodup_cons.1 hnd).1 hmem
      subst hab
      have hp' : t₁.Perm t₂ := (List.perm_cons a).1 hp
      rw [ih t₂ hp' hs₁.of_cons hs₂.of_cons (List.nodup_cons.1 hnd).2]

theorem sortByTs_eq_of_perm (l₁ l₂ : List Record) (hp : l₁.Perm l₂)
    (hnd : (l₁.map Record.ts_rx_ns).Nodup) : sortByTs l₁ = sortByTs l₂ := by
  apply sorted_perm_eq_of_nodup_ts
  · exact ((List.perm_insertionSort tsLe l₁).trans hp).trans
      (List.perm_insertionSort tsLe l₂).symm
  · exact List.sorted_insertionSort tsLe l₁
  · exact List.sorted_insertionSort tsLe l₂
  · have hpm : List.Perm ((sortByTs l₁).map Record.ts_rx_ns) (l₁.map Record.ts_rx_ns) :=
      (List.perm_insertionSort tsLe l₁).map _
    exact hpm.nodup_iff.2 hnd

/-- Claim C3 (amended): when the timestamps of the input records are pairwise
distinct, every permutation of the input yields identical derived metrics
(summary, detail and events), because sorting by timestamp then has a unique
normal form.  With duplicated timestamps the claim fails; see the
counterexample. -/
theorem order_invariance (cfg : Config) (l₁ l₂ : List Record) (hp : l₁.Perm l₂)
    (hnd : (l₁.map Record.ts_rx_ns).Nodup) :
    compute_metrics cfg l₁ = compute_metrics cfg l₂ := by
  unfold compute_metrics
  rw [sortByTs_eq_of_perm l₁ l₂ hp hnd]

unseal Rat.mul Rat.add Rat.sub Rat.inv in
/-- Counterexample to claim C3 as stated: two records sharing a timestamp.
The two input orders are permutations of each other, yet the outputs differ
(the `out_of_order` counter and the detail row order change with the tie
order). -/
theorem order_invariance_counterexample :
    ([⟨0, 1, none⟩, ⟨0, 2, none⟩] : List Record).Perm [⟨0, 2, none⟩, ⟨0, 1, none⟩] ∧
    compute_metrics cfg10 [⟨0, 1, none⟩, ⟨0, 2, none⟩] ≠
      compute_metrics cfg10 [⟨0, 2, none⟩, ⟨0, 1, none⟩] :=
  ⟨List.Perm.swap _ _ _, by decide⟩

/-- Witness for `order_invariance` on a two-record permutation with distinct
timestamps. -/
theorem order_invariance_witness :
    compute_metrics cfg10 [⟨0, 1, none⟩, ⟨5000000, 2, none⟩] =
      compute_metrics cfg10 [⟨5000000, 2, none⟩, ⟨0, 1, none⟩] :=
  order_invariance cfg10 _ _ (List.Perm.swap _ _ _) (by decide)

unseal Rat.mul Rat.add Rat.sub Rat.inv in
/-- Claim C9: a single-record input succeeds and reports
`loss_rate_est = "0.0000"` and `missing_packets_est = "0"` (not the `"n/a"`
sentinel), with `seq_min` and `seq_max` both printing that record's sequence
number, because `expected_total = 1` and `observed_unique = 1`. -/
theorem single_record_summary (t s : Int) (sid : Option String) (cfg : Config) :
    ∃ o, compute_metrics cfg [⟨t, s, sid⟩] = .ok o ∧
      o.summary.lookup "loss_rate_est" = some "0.0000" ∧
      o.summary.lookup "missing_packets_est" = some "0" ∧
      o.summary.lookup "seq_min" = some (toString s) ∧
      o.summary.lookup "seq_max" = some (toString s) := by
  have hexp : expectedTotal s s = 1 := by
    unfold expectedTotal
    rw [if_pos (le_refl s)]
    omega
  have huniq : observedUnique [s] = 1 := by
    unfold observedUnique
    simp
  have hmiss : missingEst 1 1 = 0 := rfl
  have hloss : lossRate 0 1 = some 0 := by
    unfold lossRate
    rw [if_pos (by norm_num)]
    norm_num
  have hfmt : fmtFixed 4 0 = "0.0000" := by decide
  refine ⟨outputOf cfg [⟨t, s, sid⟩] s s, rfl, ?_, ?_, ?_, ?_⟩ <;>
    simp [outputOf, hexp, huniq, hmiss, hloss, hfmt, List.lookup] <;> rfl

unseal Rat.mul Rat.add Rat.sub Rat.inv in
/-- Claim C1 (code bug): on an empty record set `compute_metrics` never
reaches the summary construction: `int(seq.min())` receives NaN and raises
`ValueError`, so the guarded empty-input branches of the code
(`expected_total = 0` and the `"n/a"` arm of `loss_rate_est`) are dead.  On a
single record the claimed behavior does hold: no error, every iat-derived
statistic is the `"n/a"` sentinel, and the count fields are zero. -/
theorem degenerate_input_behavior :
    compute_metrics cfg10 [] = .error "cannot convert float NaN to integer" ∧
    (compute_metrics cfg10 [⟨0, 7, none⟩]).toOption.map
        (fun o => o.summary.lookup "iat_ms_mean") = some (some "n/a") ∧
    (compute_metrics cfg10 [⟨0, 7, none⟩]).toOption.map
        (fun o => o.summary.lookup "jitter_ms_std") = some (some "n/a") ∧
    (compute_metrics cfg10 [⟨0, 7, none⟩]).toOption.map
        (fun o => o.summary.lookup "abs_dev_ms_p95") = some (some "n/a") ∧
    (compute_metrics cfg10 [⟨0, 7, none⟩]).toOption.map
        (fun o => o.summary.lookup "loss_rate_est") = some (some "0.0000") ∧
    (compute_metrics cfg10 [⟨0, 7, none⟩]).toOption.map
        (fun o => o.summary.lookup "missing_packets_est") = some (some "0") ∧
    (compute_metrics cfg10 [⟨0, 7, none⟩]).toOption.map
        (fun o => o.summary.lookup "duplicates") = some (some "0") :=
  ⟨rfl, by decide, by decide, by decide, by decide, by decide, by decide⟩

end VNTA
